import Mathlib

/-!
Verification of the polysim path-simplification core.

This file is a shallow embedding, in Lean 4, of the TypeScript sources
`math.ts`, `line.ts`, `line_fitter.ts`, `simple_path_hull.ts`, `path.ts` and
`path_simplifier.ts`.  JavaScript numbers are modelled as exact rationals
(`ℚ`); the mutable object graph of the convex hull is modelled as an arena of
nodes addressed by index (with explicit `prev`/`next` indices and a validity
flag), and the mutable `tags` array of the simplifier is modelled as a list
that is rebuilt functionally on every append.  All definitions below are
executable, so concrete runs of the algorithm can be evaluated inside proofs.
-/

set_option maxRecDepth 1000000

set_option allowUnsafeReducibility true

attribute [local semireducible] Rat.add Rat.mul Rat.sub Rat.div Rat.neg Rat.inv Rat.blt

namespace Polysim

/-- 2D cartesian vector (`PVector` in `math.ts`).  JavaScript floating-point
coordinates are modelled as exact rationals. -/
@[ext]
structure PVector where
  x : ℚ
  y : ℚ
deriving DecidableEq

instance : Inhabited PVector := ⟨⟨0, 0⟩⟩

namespace PVector

/-- `PVector.magSq`: squared magnitude. -/
def magSq (v : PVector) : ℚ := v.x * v.x + v.y * v.y

/-- `PVector.sub`. -/
def sub (a b : PVector) : PVector := ⟨a.x - b.x, a.y - b.y⟩

/-- `PVector.per`: the per (cross) product of two vectors. -/
def per (u v : PVector) : ℚ := u.x * v.y - v.x * u.y

/-- `PVector.span`: the vector spanned between two points. -/
def span (a b : PVector) : PVector := sub b a

/-- `PVector.distSq`: squared distance between two points. -/
def distSq (a b : PVector) : ℚ :=
  (a.x - b.x) * (a.x - b.x) + (a.y - b.y) * (a.y - b.y)

/-- Modelled from the spec: `PVector.dot` is called by the simplifier's
pioneer test but its definition is not among the provided sources.  The spec
describes the pioneer test as comparing the signs of "dot products" of the
line's tangent with the spans towards the two hull neighbours, i.e. the
standard 2D dot product. -/
def dot (u v : PVector) : ℚ := u.x * v.x + u.y * v.y

end PVector

/-- Implicit line `a·x + b·y + c = 0` with its coordinate frame
(`Line` in `line.ts`). -/
@[ext]
structure Line where
  a : ℚ
  b : ℚ
  c : ℚ
deriving DecidableEq

/-- Point in a line's (s, t) coordinates (`LVector` in `line.ts`). -/
@[ext]
structure LVector where
  s : ℚ
  t : ℚ
deriving DecidableEq

namespace Line

/-- `Line.origin`: projection of the cartesian origin onto the line. -/
def origin (l : Line) : PVector :=
  let c1 := -l.c / (l.a * l.a + l.b * l.b)
  ⟨l.a * c1, l.b * c1⟩

/-- `Line.tangent`: the `(-b, a)` vector. -/
def tangent (l : Line) : PVector := ⟨-l.b, l.a⟩

/-- `Line.normal`: the `(a, b)` vector. -/
def normal (l : Line) : PVector := ⟨l.a, l.b⟩

/-- `Line.map`: cartesian `(x, y)` to line `(s, t)` coordinates. -/
def map (l : Line) (p : PVector) : LVector :=
  let c1 := l.a * l.a + l.b * l.b
  let t := (l.a * p.x + l.b * p.y + l.c) / c1
  let c2 := l.c / c1 - t
  let s := if |l.a| > |l.b| then (p.y + l.b * c2) / l.a else -(p.x + l.a * c2) / l.b
  ⟨s, t⟩

/-- `Line.unmapc`: line `(s, t)` to cartesian coordinates. -/
def unmapc (l : Line) (s t : ℚ) : PVector :=
  let c1 := t - l.c / (l.a * l.a + l.b * l.b)
  ⟨c1 * l.a - s * l.b, c1 * l.b + s * l.a⟩

/-- `Line.unmap`: line `(s, t)` to cartesian coordinates. -/
def unmap (l : Line) (lv : LVector) : PVector := l.unmapc lv.s lv.t

/-- `Line.remapc`: as implemented in `line.ts`, `this.map(other.unmapc(s, t))` —
the coordinates `(s, t)` are interpreted in `other`'s frame and the resulting
cartesian point is expressed in the receiver's frame. -/
def remapc (l other : Line) (s t : ℚ) : LVector := l.map (other.unmapc s t)

/-- `Line.remap`: `this.remapc(other, l.s, l.t)`. -/
def remap (l other : Line) (lv : LVector) : LVector := l.remapc other lv.s lv.t

end Line

namespace Geometry

/-- `Geometry.side`: signed area test. -/
def side (a b p : PVector) : ℚ :=
  PVector.per (PVector.span a b) (PVector.span a p)

/-- `Geometry.intersect`: segment intersection test of `ab` and `cd`. -/
def intersect (a b c d : PVector) : Bool :=
  let ab := PVector.span a b
  let ac := PVector.span a c
  let ad := PVector.span a d
  let sab := PVector.per ab ac * PVector.per ab ad
  if sab > 0 then false
  else
    let cd := PVector.span c d
    let cb := PVector.span c b
    let scd := PVector.per cd ac * PVector.per cd cb
    if scd < 0 then false
    else if sab = 0 ∧ scd = 0 then
      let abSq := ab.magSq
      decide (ac.magSq ≤ abSq ∨ ad.magSq < abSq)
    else true

/-- `Geometry.project`: orthogonal projection of a point onto a line. -/
def project (p : PVector) (l : Line) : PVector :=
  let t := -(l.a * p.x + l.b * p.y + l.c) / (l.a * l.a + l.b * l.b)
  ⟨p.x + t * l.a, p.y + t * l.b⟩

/-- `Geometry.intersection`: intersection point of two lines by Gaussian
elimination with full pivoting.  The source produces infinite or NaN
coordinates when the pivoting degenerates (parallel or identical lines);
since `ℚ` has no such values, the Boolean component is `true` exactly when
the source computation would divide by zero, i.e. when the source result
would fail the caller's `isSingular()` check. -/
def intersection (l1 l2 : Line) : PVector × Bool :=
  let r0 : ℚ × ℚ × ℚ × ℚ × ℚ × ℚ :=
    if max |l1.a| |l1.b| < max |l2.a| |l2.b| then
      (l2.a, l2.b, -l2.c, l1.a, l1.b, -l1.c)
    else
      (l1.a, l1.b, -l1.c, l2.a, l2.b, -l2.c)
  let (a11, a12, b1, a21, a22, b2) := r0
  let r1 : ℚ × ℚ × ℚ × ℚ × Bool :=
    if |a11| < |a12| then (a12, a11, a22, a21, true) else (a11, a12, a21, a22, false)
  let (a11, a12, a21, a22, swapResult) := r1
  if a11 = 0 then (⟨0, 0⟩, true)
  else
    let a22 := a22 - a12 * a21 / a11
    let b2 := b2 - b1 * a21 / a11
    if a22 = 0 then (⟨0, 0⟩, true)
    else
      let x2 := b2 / a22
      let x1 := (b1 - a12 * x2) / a11
      (if swapResult then ⟨x2, x1⟩ else ⟨x1, x2⟩, false)

end Geometry

/-! ### LineFitter (`line_fitter.ts`)

The fitter maintains prefix sums `sums[k] = Σ over points[0..k-1]` for five
statistics, and `rangeSum(sums, i, j) = sums[j+1] - sums[i]`.  Rational
arithmetic is exact, so the prefix table is represented by the function
`sumTake f pts k = Σ f over the first k points`. -/

/-- Value of the prefix-sum table of statistic `f` at index `k`:
`sums[k] = Σ_{m < k} f(points[m])` (`LineFitter.onAddPoint` accumulation). -/
def sumTake (f : PVector → ℚ) (pts : List PVector) (k : ℕ) : ℚ :=
  ((pts.take k).map f).sum

/-- `LineFitter.rangeSum`: `sums[j + 1] - sums[i]`. -/
def rangeSum (f : PVector → ℚ) (pts : List PVector) (i j : ℕ) : ℚ :=
  sumTake f pts (j + 1) - sumTake f pts i

/-- `Number.EPSILON`, i.e. `2 ^ (-52)`, as an exact rational. -/
def epsilon : ℚ := 1 / 4503599627370496

/-- The static `LineFitter.fitLine(sumX, sumY, sumXX, sumYY, sumXY, n)`. -/
def fitLineStatic (sumX sumY sumXX sumYY sumXY : ℚ) (n : ℤ) : Line :=
  if n ≤ 0 then ⟨1, -1, 0⟩
  else
    let nq : ℚ := (n : ℚ)
    let fa := max (nq * sumXX - sumX * sumX) 0
    let fb := max (nq * sumYY - sumY * sumY) 0
    if fa ≤ epsilon ∧ fb ≤ epsilon then ⟨-1, -1, (sumX + sumY) / nq⟩
    else if fa < fb then
      let b := (sumX * sumY - nq * sumXY) / fb
      ⟨1, b, -(sumY * b + sumX) / nq⟩
    else
      let a := (sumX * sumY - nq * sumXY) / fa
      ⟨a, 1, -(sumX * a + sumY) / nq⟩

/-- `LineFitter.fitLine(i, j)`: least-squares line for points `i..j` of the
path, computed from the five range sums. -/
def fitLine (pts : List PVector) (i j : ℕ) : Line :=
  fitLineStatic (rangeSum (fun p => p.x) pts i j) (rangeSum (fun p => p.y) pts i j)
    (rangeSum (fun p => p.x * p.x) pts i j) (rangeSum (fun p => p.y * p.y) pts i j)
    (rangeSum (fun p => p.x * p.y) pts i j) ((j : ℤ) - (i : ℤ) + 1)

/-! ### SimplePathHull (`simple_path_hull.ts`)

The hull's cyclic doubly-linked list of nodes is modelled as an arena: a list
of node records addressed by index, each holding the point position, the
indices of the previous and next nodes in CCW order and the validity flag.
JavaScript pointer mutation becomes functional updates of the arena. -/

/-- `SimplePathHullNode`: position, CCW neighbours (as arena indices) and
validity flag. -/
structure HullNode where
  pos : PVector
  prev : ℕ
  next : ℕ
  isValid : Bool
deriving DecidableEq

instance : Inhabited HullNode := ⟨⟨default, 0, 0, false⟩⟩

/-- Arena lookup; indices produced by the algorithm are always in range, so
the default node stands for the unreachable out-of-range case. -/
def getNode (ns : List HullNode) (k : ℕ) : HullNode := ns.getD k default

/-- Functional update of one node record in the arena. -/
def setNode (ns : List HullNode) (k : ℕ) (v : HullNode) : List HullNode := ns.set k v

/-- `SimplePathHull.makeNode`: allocate a node with given neighbours and
redirect `node.prev.next` and `node.next.prev` to it.  A missing neighbour
argument means the node points at itself, as in the source. -/
def makeNode (ns : List HullNode) (pos : PVector) (prev? next? : Option ℕ) :
    List HullNode × ℕ :=
  let n := ns.length
  let prev := prev?.getD n
  let next := next?.getD n
  let ns := ns ++ [⟨pos, prev, next, true⟩]
  let ns := setNode ns next { getNode ns next with prev := n }
  let ns := setNode ns prev { getNode ns prev with next := n }
  (ns, n)

/-- The backward tangent-seeking walk of `SimplePathHull.offer`:
`while (n0.prev != first && side(n0.pos, n0.prev.pos, p) >= 0) n0 = n0.prev`.
The walk is fuel-bounded; fuel `ns.length` suffices because the guard stops
at `first` after at most one trip around the cycle. -/
def walkPrev (ns : List HullNode) (first : ℕ) (p : PVector) : ℕ → ℕ → ℕ
  | 0, n0 => n0
  | fuel + 1, n0 =>
    let pr := (getNode ns n0).prev
    if pr ≠ first ∧ Geometry.side (getNode ns n0).pos (getNode ns pr).pos p ≥ 0 then
      walkPrev ns first p fuel pr
    else n0

/-- The forward tangent-seeking walk of `SimplePathHull.offer`:
`while (n1.next != first && side(n1.pos, n1.next.pos, p) <= 0) n1 = n1.next`. -/
def walkNext (ns : List HullNode) (first : ℕ) (p : PVector) : ℕ → ℕ → ℕ
  | 0, n1 => n1
  | fuel + 1, n1 =>
    let nx := (getNode ns n1).next
    if nx ≠ first ∧ Geometry.side (getNode ns n1).pos (getNode ns nx).pos p ≤ 0 then
      walkNext ns first p fuel nx
    else n1

/-- The eviction loop of `SimplePathHull.offer`: starting at `n`, invalidate
nodes and follow `next` until reaching `n1`, decrementing the size. -/
def evict (n1 : ℕ) : ℕ → List HullNode → ℕ → ℕ → List HullNode × ℕ
  | 0, ns, _n, size => (ns, size)
  | fuel + 1, ns, n, size =>
    if n ≠ n1 then
      evict n1 fuel (setNode ns n { getNode ns n with isValid := false })
        ((getNode ns n).next) (size - 1)
    else (ns, size)

/-- `SimplePathHull`: node arena, index of the `first` node, and size. -/
structure SimplePathHull where
  nodes : List HullNode
  first : Option ℕ
  size : ℕ
deriving DecidableEq

namespace SimplePathHull

/-- A freshly constructed, empty hull. -/
def empty : SimplePathHull := ⟨[], none, 0⟩

/-- `SimplePathHull.offer(p)`: try to extend the hull by `p`.  Returns the
updated hull and the index of the newly created node, or `none` if `p` was
interior and ignored.  The `none` fallbacks for a missing `first` are
unreachable for the sizes that use them. -/
def offer (h : SimplePathHull) (p : PVector) : SimplePathHull × Option ℕ :=
  if h.size ≥ 3 then
    match h.first with
    | none => (h, none)
    | some first =>
      let n0 := walkPrev h.nodes first p h.nodes.length first
      let n1 := walkNext h.nodes first p h.nodes.length first
      if n0 ≠ n1 then
        let ev := evict n1 h.nodes.length h.nodes ((getNode h.nodes n0).next) h.size
        let mk := makeNode ev.1 p (some n0) (some n1)
        (⟨mk.1, some mk.2, ev.2 + 1⟩, some mk.2)
      else (h, none)
  else if h.size = 0 then
    let mk := makeNode h.nodes p none none
    (⟨mk.1, some mk.2, h.size + 1⟩, some mk.2)
  else if h.size = 1 then
    let mk := makeNode h.nodes p h.first h.first
    (⟨mk.1, some mk.2, h.size + 1⟩, some mk.2)
  else
    match h.first with
    | none => (h, none)
    | some first =>
      let s := Geometry.side (getNode h.nodes first).pos
        (getNode h.nodes (getNode h.nodes first).next).pos p
      if s < 0 then
        let mk := makeNode h.nodes p (some first) (some ((getNode h.nodes first).next))
        (⟨mk.1, some mk.2, h.size + 1⟩, some mk.2)
      else if s > 0 then
        let mk := makeNode h.nodes p (some ((getNode h.nodes first).prev)) (some first)
        (⟨mk.1, some mk.2, h.size + 1⟩, some mk.2)
      else
        let ns := setNode h.nodes first { getNode h.nodes first with isValid := false }
        let mk := makeNode ns p (some ((getNode ns first).prev))
          (some ((getNode ns first).next))
        (⟨mk.1, some mk.2, h.size - 1 + 1⟩, some mk.2)

end SimplePathHull

/-! ### ErrorBox (`path_simplifier.ts`) -/

/-- `ErrorBox`: a rectangle `[s0, s1] × [t0, t1]` in the coordinate frame of
`line`. -/
structure ErrorBox where
  line : Line
  s0 : ℚ
  s1 : ℚ
  t0 : ℚ
  t1 : ℚ
deriving DecidableEq

namespace ErrorBox

/-- The `ErrorBox` constructor: a box collapsed onto a single point's
coordinates in `line`'s frame. -/
def construct (line : Line) (p : PVector) : ErrorBox :=
  let l := line.map p
  ⟨line, l.s, l.s, l.t, l.t⟩

/-- `ErrorBox.extend(line, p)`: remap the four corners into the new line's
frame and bound them together with the mapped new point. -/
def extend (box : ErrorBox) (line : Line) (p : PVector) : ErrorBox :=
  let l := line.map p
  let l00 := line.remapc box.line box.s0 box.t0
  let l01 := line.remapc box.line box.s0 box.t1
  let l10 := line.remapc box.line box.s1 box.t0
  let l11 := line.remapc box.line box.s1 box.t1
  ⟨line,
    min l.s (min l00.s (min l01.s (min l10.s l11.s))),
    max l.s (max l00.s (max l01.s (max l10.s l11.s))),
    min l.t (min l00.t (min l01.t (min l10.t l11.t))),
    max l.t (max l00.t (max l01.t (max l10.t l11.t)))⟩

/-- `ErrorBox.error()`: `max(t0², t1²) · (a² + b²)`. -/
def error (box : ErrorBox) : ℚ :=
  max (box.t0 * box.t0) (box.t1 * box.t1) * (box.line.a * box.line.a + box.line.b * box.line.b)

/-- `ErrorBox.getCartesianCorners()`. -/
def getCartesianCorners (box : ErrorBox) : List PVector :=
  [box.line.unmapc box.s0 box.t0,
   box.line.unmapc box.s0 box.t1,
   box.line.unmapc box.s1 box.t1,
   box.line.unmapc box.s1 box.t0]

end ErrorBox

/-! ### PathSimplifier (`path_simplifier.ts`) -/

/-- `Event`: verdict recorded in the trace for each considered candidate. -/
inductive Event where
  | accept
  | cut
  | threshold
  | pioneer_weak
  | pioneer_strong
deriving DecidableEq

/-- `PointTag`: DP record per path index.  `next = -1` is the sentinel used
for index 0. -/
structure PointTag where
  dist : ℕ
  next : ℤ
  cut : Bool
deriving DecidableEq

instance : Inhabited PointTag := ⟨⟨0, -1, false⟩⟩

/-- The mutation `this.tags[i].cut = true` of the source, as a functional
list update that changes only the `cut` field of entry `i`. -/
def setCut : List PointTag → ℕ → List PointTag
  | [], _ => []
  | t :: ts, 0 => ⟨t.dist, t.next, true⟩ :: ts
  | t :: ts, k + 1 => t :: setCut ts k

/-- `PathSimplifier.isPioneer(line, n)` for a node given by arena index. -/
def isPioneer (line : Line) (h : SimplePathHull) (n : ℕ) : Bool :=
  let node := getNode h.nodes n
  if ¬ node.isValid then false
  else
    let t := line.tangent
    let dp := PVector.dot t (PVector.span node.pos (getNode h.nodes node.prev).pos)
    let dn := PVector.dot t (PVector.span node.pos (getNode h.nodes node.next).pos)
    decide (dp * dn ≥ 0)

/-- State threaded through the backward scan of `PathSimplifier.onAddPoint`:
the tag table (whose `cut` flags the scan may set), the current best
predecessor `nxt` with its distance, the error box, the local hull, and the
trace. -/
structure ScanState where
  tags : List PointTag
  nxt : ℤ
  dist : ℕ
  box : ErrorBox
  hull : SimplePathHull
  trace : List Event

/-- One iteration of the backward scan of `onAddPoint`, for candidate index
`i`.  Returns the updated state and `true` when the loop continues to `i - 1`
(`false` models `break`). -/
def scanStep (thresholdSq : ℚ) (pts : List PVector) (j : ℕ) (pj : PVector) (nj : ℕ)
    (i : ℕ) (st : ScanState) : ScanState × Bool :=
  let pi := pts.getD i default
  let ti := st.tags.getD i default
  if ti.cut || (decide (i + 2 < j) &&
      Geometry.intersect pi (pts.getD (i + 1) default) (pts.getD (j - 1) default) pj) then
    ({ st with tags := setCut st.tags i, trace := st.trace ++ [Event.cut] }, false)
  else
    let line := fitLine pts i j
    let box := st.box.extend line pi
    if box.error > thresholdSq then
      ({ st with box := box, trace := st.trace ++ [Event.threshold] }, false)
    else
      let off := st.hull.offer pi
      let hull := off.1
      let ni := off.2
      if ni.isNone || !(isPioneer line hull (ni.getD 0)) then
        ({ st with box := box, hull := hull, trace := st.trace ++ [Event.pioneer_weak] }, true)
      else if !(isPioneer line hull nj) then
        ({ st with box := box, hull := hull, trace := st.trace ++ [Event.pioneer_strong] }, false)
      else
        let st1 : ScanState :=
          { st with box := box, hull := hull, trace := st.trace ++ [Event.accept] }
        if ti.dist < st.dist then ({ st1 with nxt := (i : ℤ), dist := ti.dist }, true)
        else (st1, true)

/-- The backward scan `for (let i = j - 1; i >= 0; --i)` of `onAddPoint`,
started at candidate index `i` and running down to 0 unless an iteration
breaks. -/
def scanFrom (thresholdSq : ℚ) (pts : List PVector) (j : ℕ) (pj : PVector) (nj : ℕ) :
    ℕ → ScanState → ScanState
  | 0, st => (scanStep thresholdSq pts j pj nj 0 st).1
  | i + 1, st =>
    let r := scanStep thresholdSq pts j pj nj (i + 1) st
    if r.2 then scanFrom thresholdSq pts j pj nj i r.1 else r.1

/-- `PathSimplifier.onAddPoint`: process the append of the point with index
`j = tags.length`; `pts` is the path including the new point (the fitter is
registered before the simplifier, so its statistics already cover the new
point when the scan runs).  Returns the new tag table and the trace. -/
def onAddPoint (thresholdSq : ℚ) (pts : List PVector) (tags : List PointTag) :
    List PointTag × List Event :=
  let j := tags.length
  let pj := pts.getD j default
  let box := ErrorBox.construct (fitLine pts j j) pj
  let off := SimplePathHull.empty.offer pj
  let hull := off.1
  let nj := (off.2).getD 0
  if j = 0 then (tags ++ [⟨0, -1, false⟩], [Event.accept])
  else
    let st0 : ScanState :=
      ⟨tags, (j : ℤ) - 1, (tags.getD (j - 1) default).dist, box, hull, [Event.accept]⟩
    let st := scanFrom thresholdSq pts j pj nj (j - 1) st0
    (st.tags ++ [⟨st.dist + 1, st.nxt, false⟩], st.trace)

/-- Replay of the path construction: feed the points one at a time to
`onAddPoint`, as `Path.addPoint` notifies its listeners.  `pre` is the list
of points already appended, `tags`/`trace` the simplifier state so far. -/
def simulateAux (thresholdSq : ℚ) (pre : List PVector) (tags : List PointTag)
    (trace : List Event) : List PVector → List PointTag × List Event
  | [] => (tags, trace)
  | p :: rest =>
    let pts := pre ++ [p]
    let r := onAddPoint thresholdSq pts tags
    simulateAux thresholdSq pts r.1 r.2 rest

/-- Full run of the simplifier on a path: the tag table and the trace of the
last append after all points of `pts` have been appended in order. -/
def simulate (thresholdSq : ℚ) (pts : List PVector) : List PointTag × List Event :=
  simulateAux thresholdSq [] [] [] pts

/-- The `PathSimplifier` constructor: it stores `thresholdSq = threshold²`
(performing no validation of `threshold`) and replays the existing path
points through the modification callbacks. -/
def mkPathSimplifier (pts : List PVector) (threshold : ℚ) : ℚ × List PointTag :=
  (threshold * threshold, (simulate (threshold * threshold) pts).1)

/-- `tags[j].next` read as a natural number index, as `getSimplified` uses it
to walk the predecessor chain. -/
def nextNat (tags : List PointTag) (j : ℕ) : ℕ := ((tags.getD j default).next).toNat

/-- The `while (i != 0)` loop of `PathSimplifier.getSimplified`, fuel-bounded;
returns the accumulated output points and the last fitted line.  Fuel
`pts.length` suffices because the predecessor chain is strictly decreasing. -/
def simLoop (thresholdSq : ℚ) (pts : List PVector) (tags : List PointTag) :
    ℕ → ℕ → Line → List PVector → List PVector × Line
  | 0, _i, line, acc => (acc, line)
  | fuel + 1, i, line, acc =>
    if i = 0 then (acc, line)
    else
      let j := i
      let i' := nextNat tags j
      let pj := pts.getD j default
      let prevLine := line
      let line' := fitLine pts i' j
      let r := Geometry.intersection line' prevLine
      let q := if r.2 || decide (PVector.distSq r.1 pj > 4 * thresholdSq) then pj else r.1
      simLoop thresholdSq pts tags fuel i' line' (acc ++ [q])

/-- `PathSimplifier.getSimplified()`: for at most one point the original path
is returned; otherwise the predecessor chain is walked from the last index,
emitting first the projection of the last original point, then one vertex per
traversed edge, and finally the projection of original point 0. -/
def getSimplified (thresholdSq : ℚ) (pts : List PVector) (tags : List PointTag) :
    List PVector :=
  if pts.length ≤ 1 then pts
  else
    let j := pts.length - 1
    let i := nextNat tags j
    let line := fitLine pts i j
    let r := simLoop thresholdSq pts tags pts.length i line
      [Geometry.project (pts.getD j default) line]
    r.1 ++ [Geometry.project (pts.getD 0 default) r.2]

/-- The index at the far end of the first chain edge: walking the predecessor
chain from `j`, the index whose recorded predecessor is 0. -/
def lastChainIdx (tags : List PointTag) : ℕ → ℕ → ℕ
  | 0, j => j
  | fuel + 1, j =>
    let i := nextNat tags j
    if i = 0 then j else lastChainIdx tags fuel i

/-- Well-formedness of the tag table: entry 0 carries the sentinel `-1`, and
every later entry records a predecessor strictly below its own index. -/
def tagsGood (tags : List PointTag) : Prop :=
  (∀ k, 0 < k → k < tags.length →
    0 ≤ (tags.getD k default).next ∧ (tags.getD k default).next < (k : ℤ)) ∧
  (0 < tags.length → (tags.getD 0 default).next = -1)

/-- A set `cut` flag can only live at an index at least 3 below the current
length: it was set while scanning some later appended index `j` with
`i < j - 2`. -/
def cutLenInv (tags : List PointTag) : Prop :=
  ∀ k, (tags.getD k default).cut = true → k + 3 ≤ tags.length

/-! ## Helper lemmas -/

theorem Line.unmap_map (l : Line) (p : PVector) (h : l.a * l.a + l.b * l.b ≠ 0) :
    l.unmap (l.map p) = p := by
  obtain ⟨a, b, c⟩ := l
  obtain ⟨x, y⟩ := p
  simp only [Line.map, Line.unmap, Line.unmapc] at *
  by_cases hab : |a| > |b|
  · have ha : a ≠ 0 := by
      intro h0
      rw [h0, abs_zero] at hab
      exact absurd hab (not_lt.mpr (abs_nonneg b))
    rw [if_pos hab]
    ext
    · field_simp
      ring
    · field_simp
      ring
  · have hb : b ≠ 0 := by
      intro h0
      rw [not_lt, h0, abs_zero] at hab
      have ha : a = 0 := abs_nonpos_iff.mp hab
      rw [ha, h0] at h
      simp at h
    rw [if_neg hab]
    ext
    · field_simp
      ring
    · field_simp
      ring

theorem rangeSum_single (f : PVector → ℚ) (pts : List PVector) (i : ℕ)
    (h : i < pts.length) : rangeSum f pts i i = f (pts.getD i default) := by
  unfold rangeSum sumTake
  rw [List.take_succ, List.getElem?_eq_getElem h, List.map_append, List.sum_append,
    List.getD_eq_getElem?_getD, List.getElem?_eq_getElem h]
  simp

theorem fitLine_diag (pts : List PVector) (i : ℕ) (h : i < pts.length) :
    fitLine pts i i = ⟨-1, -1, (pts.getD i default).x + (pts.getD i default).y⟩ := by
  unfold fitLine
  rw [rangeSum_single _ _ _ h, rangeSum_single _ _ _ h, rangeSum_single _ _ _ h,
    rangeSum_single _ _ _ h, rangeSum_single _ _ _ h]
  have hn : (i : ℤ) - (i : ℤ) + 1 = 1 := by ring
  rw [hn]
  unfold fitLineStatic
  rw [if_neg (by norm_num)]
  have hfa : ((1 : ℤ) : ℚ) * ((pts.getD i default).x * (pts.getD i default).x) -
      (pts.getD i default).x * (pts.getD i default).x = 0 := by
    push_cast
    ring
  have hfb : ((1 : ℤ) : ℚ) * ((pts.getD i default).y * (pts.getD i default).y) -
      (pts.getD i default).y * (pts.getD i default).y = 0 := by
    push_cast
    ring
  rw [if_pos]
  · congr 1
    push_cast
    ring
  · constructor
    · rw [hfa]
      simp [epsilon]
    · rw [hfb]
      simp [epsilon]

theorem mul_self_le_max_mul_self {t0 t t1 : ℚ} (h0 : t0 ≤ t) (h1 : t ≤ t1) :
    t * t ≤ max (t0 * t0) (t1 * t1) := by
  rcases le_total 0 t with ht | ht
  · exact le_max_of_le_right (mul_self_le_mul_self ht h1)
  · refine le_max_of_le_left ?_
    nlinarith

theorem setCut_length (tags : List PointTag) (i : ℕ) :
    (setCut tags i).length = tags.length := by
  induction tags generalizing i with
  | nil => rfl
  | cons t ts ih =>
    cases i with
    | zero => rfl
    | succ k => simpa [setCut] using ih k

theorem setCut_getD_next (tags : List PointTag) (i k : ℕ) :
    ((setCut tags i).getD k default).next = (tags.getD k default).next := by
  induction tags generalizing i k with
  | nil => rfl
  | cons t ts ih =>
    cases i with
    | zero =>
      cases k with
      | zero => rfl
      | succ m => rfl
    | succ n =>
      cases k with
      | zero => rfl
      | succ m => simpa [setCut] using ih n m

theorem setCut_getD_cut (tags : List PointTag) (i k : ℕ) :
    ((setCut tags i).getD k default).cut =
      if k = i ∧ k < tags.length then true else (tags.getD k default).cut := by
  induction tags generalizing i k with
  | nil => simp [setCut]
  | cons t ts ih =>
    cases i with
    | zero =>
      cases k with
      | zero => simp [setCut]
      | succ m => simp [setCut]
    | succ n =>
      cases k with
      | zero => simp [setCut]
      | succ m =>
        simp only [setCut, List.getD_cons_succ, List.length_cons, ih n m]
        by_cases hmn : m = n
        · simp [hmn]
        · simp [hmn]

theorem setCut_cut_mono (tags : List PointTag) (i k : ℕ)
    (h : (tags.getD k default).cut = true) :
    ((setCut tags i).getD k default).cut = true := by
  rw [setCut_getD_cut]
  split_ifs with hcond
  · rfl
  · exact h

theorem setCut_cut_imp (tags : List PointTag) (i k : ℕ)
    (h : ((setCut tags i).getD k default).cut = true) :
    (tags.getD k default).cut = true ∨ k = i := by
  rw [setCut_getD_cut] at h
  by_cases hcond : k = i ∧ k < tags.length
  · exact Or.inr hcond.1
  · rw [if_neg hcond] at h
    exact Or.inl h

theorem scanStep_tags_or (thresholdSq : ℚ) (pts : List PVector) (j : ℕ) (pj : PVector)
    (nj : ℕ) (i : ℕ) (st : ScanState) :
    (scanStep thresholdSq pts j pj nj i st).1.tags = setCut st.tags i ∨
    (scanStep thresholdSq pts j pj nj i st).1.tags = st.tags := by
  simp only [scanStep]
  split_ifs <;> simp

theorem scanStep_nxt_or (thresholdSq : ℚ) (pts : List PVector) (j : ℕ) (pj : PVector)
    (nj : ℕ) (i : ℕ) (st : ScanState) :
    (scanStep thresholdSq pts j pj nj i st).1.nxt = st.nxt ∨
    (scanStep thresholdSq pts j pj nj i st).1.nxt = (i : ℤ) := by
  simp only [scanStep]
  split_ifs <;> simp

theorem scanStep_cut_break (thresholdSq : ℚ) (pts : List PVector) (j : ℕ) (pj : PVector)
    (nj : ℕ) (i : ℕ) (st : ScanState)
    (h : (st.tags.getD i default).cut = true) :
    scanStep thresholdSq pts j pj nj i st =
      ({ st with tags := setCut st.tags i, trace := st.trace ++ [Event.cut] }, false) := by
  simp only [scanStep]
  rw [if_pos]
  case hc =>
    rw [h]
    simp

theorem scanStep_cut_new (thresholdSq : ℚ) (pts : List PVector) (j : ℕ) (pj : PVector)
    (nj : ℕ) (i : ℕ) (st : ScanState) (k : ℕ)
    (h : (((scanStep thresholdSq pts j pj nj i st).1.tags).getD k default).cut = true) :
    (st.tags.getD k default).cut = true ∨ (k = i ∧ i + 2 < j) := by
  revert h
  simp only [scanStep]
  split_ifs with h1 h2 h3 h4 h5
  all_goals intro h
  · rcases setCut_cut_imp st.tags i k h with hold | hk
    · exact Or.inl hold
    · subst hk
      rcases Bool.or_eq_true_iff.mp h1 with hcut | hand
      · exact Or.inl hcut
      · have := (Bool.and_eq_true _ _).mp hand
        exact Or.inr ⟨rfl, of_decide_eq_true this.1⟩
  all_goals exact Or.inl h

theorem scanFrom_preserve (thresholdSq : ℚ) (pts : List PVector) (j : ℕ) (pj : PVector)
    (nj : ℕ) (P : ScanState → Prop) (i0 : ℕ)
    (hstep : ∀ i st, i ≤ i0 → P st → P (scanStep thresholdSq pts j pj nj i st).1) :
    ∀ i st, i ≤ i0 → P st → P (scanFrom thresholdSq pts j pj nj i st) := by
  intro i
  induction i with
  | zero => exact fun st hi hst => hstep 0 st hi hst
  | succ n ih =>
    intro st hi hst
    simp only [scanFrom]
    split_ifs with hc
    · exact ih _ (Nat.le_of_succ_le hi) (hstep _ _ hi hst)
    · exact hstep _ _ hi hst

theorem scanFrom_tags_facts (thresholdSq : ℚ) (pts : List PVector) (j : ℕ) (pj : PVector)
    (nj : ℕ) (i : ℕ) (st : ScanState) :
    (scanFrom thresholdSq pts j pj nj i st).tags.length = st.tags.length ∧
    ∀ k, (((scanFrom thresholdSq pts j pj nj i st).tags).getD k default).next =
      ((st.tags).getD k default).next := by
  refine scanFrom_preserve thresholdSq pts j pj nj
    (fun st' => st'.tags.length = st.tags.length ∧
      ∀ k, ((st'.tags).getD k default).next = ((st.tags).getD k default).next)
    i ?_ i st le_rfl ⟨rfl, fun _ => rfl⟩
  intro i' st' _ hP
  rcases scanStep_tags_or thresholdSq pts j pj nj i' st' with h | h
  · rw [h]
    exact ⟨(setCut_length _ _).trans hP.1, fun k => (setCut_getD_next _ _ _).trans (hP.2 k)⟩
  · rw [h]
    exact hP

theorem scanFrom_nxt_bound (thresholdSq : ℚ) (pts : List PVector) (j : ℕ) (pj : PVector)
    (nj : ℕ) (i : ℕ) (st : ScanState) (hi : i < j)
    (h : 0 ≤ st.nxt ∧ st.nxt < (j : ℤ)) :
    0 ≤ (scanFrom thresholdSq pts j pj nj i st).nxt ∧
    (scanFrom thresholdSq pts j pj nj i st).nxt < (j : ℤ) := by
  refine scanFrom_preserve thresholdSq pts j pj nj
    (fun st' => 0 ≤ st'.nxt ∧ st'.nxt < (j : ℤ)) i ?_ i st le_rfl h
  intro i' st' hi' hP
  rcases scanStep_nxt_or thresholdSq pts j pj nj i' st' with hn | hn
  · rw [hn]
    exact hP
  · rw [hn]
    have : i' < j := lt_of_le_of_lt hi' hi
    exact ⟨Int.natCast_nonneg i', by exact_mod_cast this⟩

theorem scanFrom_cut_shield (thresholdSq : ℚ) (pts : List PVector) (j : ℕ) (pj : PVector)
    (nj : ℕ) (i0 : ℕ) (i : ℕ) (st : ScanState)
    (h : (st.tags.getD i0 default).cut = true ∧ st.nxt ≠ (i0 : ℤ)) :
    ((scanFrom thresholdSq pts j pj nj i st).tags.getD i0 default).cut = true ∧
    (scanFrom thresholdSq pts j pj nj i st).nxt ≠ (i0 : ℤ) := by
  refine scanFrom_preserve thresholdSq pts j pj nj
    (fun st' => ((st'.tags).getD i0 default).cut = true ∧ st'.nxt ≠ (i0 : ℤ)) i ?_ i st le_rfl h
  intro i' st' _ hP
  by_cases hii : i' = i0
  · subst hii
    rw [scanStep_cut_break thresholdSq pts j pj nj i' st' hP.1]
    exact ⟨setCut_cut_mono _ _ _ hP.1, hP.2⟩
  · constructor
    · rcases scanStep_tags_or thresholdSq pts j pj nj i' st' with ht | ht
      · rw [ht]
        exact setCut_cut_mono _ _ _ hP.1
      · rw [ht]
        exact hP.1
    · rcases scanStep_nxt_or thresholdSq pts j pj nj i' st' with hn | hn
      · rw [hn]
        exact hP.2
      · rw [hn]
        intro hcast
        exact hii (Nat.cast_injective hcast)

theorem scanFrom_cut_origin (thresholdSq : ℚ) (pts : List PVector) (j : ℕ) (pj : PVector)
    (nj : ℕ) (i : ℕ) (st : ScanState) (k : ℕ)
    (h : (((scanFrom thresholdSq pts j pj nj i st).tags).getD k default).cut = true) :
    ((st.tags).getD k default).cut = true ∨ k + 2 < j := by
  have := scanFrom_preserve thresholdSq pts j pj nj
    (fun st' => ∀ m, ((st'.tags).getD m default).cut = true →
      ((st.tags).getD m default).cut = true ∨ m + 2 < j)
    i ?_ i st le_rfl (fun m hm => Or.inl hm)
  · exact this k h
  · intro i' st' _ hP m hm
    rcases scanStep_cut_new thresholdSq pts j pj nj i' st' m hm with hold | hnew
    · exact hP m hold
    · rcases hnew with ⟨hm1, hm2⟩
      subst hm1
      exact Or.inr hm2

theorem scanFrom_cut_persist (thresholdSq : ℚ) (pts : List PVector) (j : ℕ) (pj : PVector)
    (nj : ℕ) (i0 : ℕ) (i : ℕ) (st : ScanState)
    (h : (st.tags.getD i0 default).cut = true) :
    ((scanFrom thresholdSq pts j pj nj i st).tags.getD i0 default).cut = true := by
  refine scanFrom_preserve thresholdSq pts j pj nj
    (fun st' => ((st'.tags).getD i0 default).cut = true) i ?_ i st le_rfl h
  intro i' st' _ hP
  rcases scanStep_tags_or thresholdSq pts j pj nj i' st' with ht | ht
  · rw [ht]
    exact setCut_cut_mono _ _ _ hP
  · rw [ht]
    exact hP

theorem onAddPoint_spec (thresholdSq : ℚ) (pts : List PVector) (tags : List PointTag)
    (h : tags.length ≠ 0) :
    ∃ nxt : ℤ, ∃ dst : ℕ, ∃ tags' : List PointTag,
      (onAddPoint thresholdSq pts tags).1 = tags' ++ [⟨dst, nxt, false⟩] ∧
      tags'.length = tags.length ∧
      (∀ k, (tags'.getD k default).next = (tags.getD k default).next) ∧
      (∀ k, (tags'.getD k default).cut = true →
        (tags.getD k default).cut = true ∨ k + 2 < tags.length) ∧
      (∀ k, (tags.getD k default).cut = true → (tags'.getD k default).cut = true) ∧
      (0 ≤ nxt ∧ nxt < (tags.length : ℤ)) ∧
      (∀ i0 : ℕ, (tags.getD i0 default).cut = true → i0 + 2 < tags.length →
        nxt ≠ (i0 : ℤ)) := by
  simp only [onAddPoint]
  rw [if_neg h]
  have hlt : tags.length - 1 < tags.length := Nat.sub_lt (Nat.pos_of_ne_zero h) one_pos
  refine ⟨_, _, _, rfl, (scanFrom_tags_facts _ _ _ _ _ _ _).1,
    (scanFrom_tags_facts _ _ _ _ _ _ _).2, ?_, ?_, ?_, ?_⟩
  · intro k hk
    exact scanFrom_cut_origin _ _ _ _ _ _ _ k hk
  · intro k hk
    exact scanFrom_cut_persist _ _ _ _ _ k _ _ hk
  · refine scanFrom_nxt_bound _ _ _ _ _ _ _ hlt ⟨?_, ?_⟩
    · show (0 : ℤ) ≤ (tags.length : ℤ) - 1
      have : (1 : ℤ) ≤ (tags.length : ℤ) := by
        exact_mod_cast Nat.one_le_iff_ne_zero.mpr h
      omega
    · show (tags.length : ℤ) - 1 < (tags.length : ℤ)
      omega
  · intro i0 hc hlen
    refine (scanFrom_cut_shield thresholdSq pts tags.length _ _ i0 _ _ ⟨hc, ?_⟩).2
    show (tags.length : ℤ) - 1 ≠ (i0 : ℤ)
    have : (i0 : ℤ) + 2 < (tags.length : ℤ) := by exact_mod_cast hlen
    omega

theorem onAddPoint_zero (thresholdSq : ℚ) (pts : List PVector) (tags : List PointTag)
    (h : tags.length = 0) :
    (onAddPoint thresholdSq pts tags).1 = tags ++ [⟨0, -1, false⟩] := by
  simp only [onAddPoint]
  rw [if_pos h]

theorem onAddPoint_length (thresholdSq : ℚ) (pts : List PVector) (tags : List PointTag) :
    (onAddPoint thresholdSq pts tags).1.length = tags.length + 1 := by
  by_cases h : tags.length = 0
  · rw [onAddPoint_zero _ _ _ h]
    simp
  · obtain ⟨nxt, dst, tags', heq, hlen, -⟩ := onAddPoint_spec thresholdSq pts tags h
    rw [heq]
    simp [hlen]

theorem onAddPoint_good (thresholdSq : ℚ) (pts : List PVector) (tags : List PointTag)
    (hg : tagsGood tags) : tagsGood (onAddPoint thresholdSq pts tags).1 := by
  by_cases h : tags.length = 0
  · rw [onAddPoint_zero _ _ _ h]
    have ht : tags = [] := List.length_eq_zero.mp h
    subst ht
    refine ⟨?_, fun _ => rfl⟩
    intro k hk hklen
    simp at hklen
    omega
  · obtain ⟨nxt, dst, tags', heq, hlen, hnext, -, -, hbound, -⟩ :=
      onAddPoint_spec thresholdSq pts tags h
    rw [heq]
    constructor
    · intro k hk hklen
      rw [List.length_append, hlen, List.length_singleton] at hklen
      rcases Nat.lt_or_ge k tags.length with hkl | hkl
      · rw [List.getD_append _ _ _ _ (hlen ▸ hkl), hnext k]
        exact hg.1 k hk hkl
      · have hkeq : k = tags.length := by omega
        subst hkeq
        rw [List.getD_append_right _ _ _ _ (le_of_eq hlen)]
        simp [hlen]
        exact ⟨hbound.1, hbound.2⟩
    · intro _
      have h0 : 0 < tags.length := Nat.pos_of_ne_zero h
      rw [List.getD_append _ _ _ _ (hlen ▸ h0), hnext 0]
      exact hg.2 h0

theorem onAddPoint_cutLenInv (thresholdSq : ℚ) (pts : List PVector) (tags : List PointTag)
    (hg : cutLenInv tags) : cutLenInv (onAddPoint thresholdSq pts tags).1 := by
  by_cases h : tags.length = 0
  · rw [onAddPoint_zero _ _ _ h]
    have ht : tags = [] := List.length_eq_zero.mp h
    subst ht
    intro k hk
    rcases Nat.lt_or_ge k 1 with hk1 | hk1
    · interval_cases k
      simp at hk
    · rw [List.getD_eq_default] at hk
      · simp at hk
      · simpa using hk1
  · obtain ⟨nxt, dst, tags', heq, hlen, -, hcutnew, -, -, -⟩ :=
      onAddPoint_spec thresholdSq pts tags h
    rw [heq]
    intro k hk
    rw [List.length_append, hlen, List.length_singleton]
    rcases Nat.lt_or_ge k tags'.length with hkl | hkl
    · rw [List.getD_append _ _ _ _ hkl] at hk
      rcases hcutnew k hk with hold | hnew
      · have := hg k hold
        omega
      · omega
    · rcases Nat.lt_or_ge k (tags'.length + 1) with hk2 | hk2
      · have hkeq : k = tags'.length := by omega
        subst hkeq
        rw [List.getD_append_right _ _ _ _ hkl] at hk
        simp at hk
      · rw [List.getD_eq_default] at hk
        · simp at hk
        · simp [hlen]
          omega

theorem onAddPoint_next_preserved (thresholdSq : ℚ) (pts : List PVector)
    (tags : List PointTag) (k : ℕ) (hk : k < tags.length) :
    (((onAddPoint thresholdSq pts tags).1).getD k default).next =
      ((tags.getD k default)).next := by
  have h : tags.length ≠ 0 := by omega
  obtain ⟨nxt, dst, tags', heq, hlen, hnext, -⟩ := onAddPoint_spec thresholdSq pts tags h
  rw [heq, List.getD_append _ _ _ _ (by omega), hnext k]

theorem onAddPoint_cut_persist (thresholdSq : ℚ) (pts : List PVector)
    (tags : List PointTag) (k : ℕ) (hk : (tags.getD k default).cut = true) :
    (((onAddPoint thresholdSq pts tags).1).getD k default).cut = true := by
  have hklen : k < tags.length := by
    by_contra hx
    rw [List.getD_eq_default _ _ (le_of_not_lt hx)] at hk
    simp [default] at hk
  have h : tags.length ≠ 0 := by omega
  obtain ⟨nxt, dst, tags', heq, hlen, -, -, hcutpers, -⟩ := onAddPoint_spec thresholdSq pts tags h
  rw [heq, List.getD_append _ _ _ _ (by omega)]
  exact hcutpers k hk

theorem simulateAux_length (thresholdSq : ℚ) :
    ∀ (rest pre : List PVector) (tags : List PointTag) (trace : List Event),
      ((simulateAux thresholdSq pre tags trace rest).1).length = tags.length + rest.length := by
  intro rest
  induction rest with
  | nil =>
    intro pre tags trace
    simp [simulateAux]
  | cons p rest ih =>
    intro pre tags trace
    simp only [simulateAux]
    rw [ih, onAddPoint_length]
    simp only [List.length_cons]
    omega

theorem simulateAux_good (thresholdSq : ℚ) :
    ∀ (rest pre : List PVector) (tags : List PointTag) (trace : List Event),
      tagsGood tags → tagsGood (simulateAux thresholdSq pre tags trace rest).1 := by
  intro rest
  induction rest with
  | nil =>
    intro pre tags trace hg
    exact hg
  | cons p rest ih =>
    intro pre tags trace hg
    simp only [simulateAux]
    exact ih _ _ _ (onAddPoint_good _ _ _ hg)

theorem simulateAux_cutLenInv (thresholdSq : ℚ) :
    ∀ (rest pre : List PVector) (tags : List PointTag) (trace : List Event),
      cutLenInv tags → cutLenInv (simulateAux thresholdSq pre tags trace rest).1 := by
  intro rest
  induction rest with
  | nil =>
    intro pre tags trace hg
    exact hg
  | cons p rest ih =>
    intro pre tags trace hg
    simp only [simulateAux]
    exact ih _ _ _ (onAddPoint_cutLenInv _ _ _ hg)

theorem simulateAux_next_preserved (thresholdSq : ℚ) :
    ∀ (rest pre : List PVector) (tags : List PointTag) (trace : List Event) (k : ℕ),
      k < tags.length →
      (((simulateAux thresholdSq pre tags trace rest).1).getD k default).next =
        ((tags.getD k default)).next := by
  intro rest
  induction rest with
  | nil =>
    intro pre tags trace k _
    rfl
  | cons p rest ih =>
    intro pre tags trace k hk
    simp only [simulateAux]
    rw [ih _ _ _ k (by rw [onAddPoint_length]; omega)]
    exact onAddPoint_next_preserved _ _ _ k hk

theorem simulateAux_shield (thresholdSq : ℚ) (i0 : ℕ) :
    ∀ (rest pre : List PVector) (tags : List PointTag) (trace : List Event),
      cutLenInv tags → (tags.getD i0 default).cut = true →
      (((simulateAux thresholdSq pre tags trace rest).1).getD i0 default).cut = true ∧
      cutLenInv (simulateAux thresholdSq pre tags trace rest).1 ∧
      ∀ k, tags.length ≤ k →
        (((simulateAux thresholdSq pre tags trace rest).1).getD k default).next ≠ (i0 : ℤ) := by
  intro rest
  induction rest with
  | nil =>
    intro pre tags trace hinv hcut
    refine ⟨hcut, hinv, ?_⟩
    intro k hk
    simp only [simulateAux]
    rw [List.getD_eq_default _ _ hk]
    intro hbad
    have : (-1 : ℤ) = (i0 : ℤ) := hbad
    omega
  | cons p rest ih =>
    intro pre tags trace hinv hcut
    simp only [simulateAux]
    have hi0len : i0 + 3 ≤ tags.length := hinv i0 hcut
    have hne : tags.length ≠ 0 := by omega
    have hcut1 := onAddPoint_cut_persist thresholdSq (pre ++ [p]) tags i0 hcut
    have hinv1 := onAddPoint_cutLenInv thresholdSq (pre ++ [p]) tags hinv
    obtain ⟨f1, f2, f3⟩ := ih (pre ++ [p]) _ _ hinv1 hcut1
    refine ⟨f1, f2, ?_⟩
    intro k hk
    rcases Nat.lt_or_ge k ((onAddPoint thresholdSq (pre ++ [p]) tags).1).length with hk2 | hk2
    · have hklen : k = tags.length := by
        rw [onAddPoint_length] at hk2
        omega
      rw [simulateAux_next_preserved _ _ _ _ _ k hk2]
      obtain ⟨nxt, dst, tags', heq, hlen, -, -, -, -, hshield⟩ :=
        onAddPoint_spec thresholdSq (pre ++ [p]) tags hne
      rw [heq, hklen, List.getD_append_right _ _ _ _ (le_of_eq hlen)]
      have : tags.length - tags'.length = 0 := by omega
      rw [this]
      exact hshield i0 hcut (by omega)
    · exact f3 k hk2

theorem simulateAux_append (thresholdSq : ℚ) :
    ∀ (xs pre : List PVector) (tags : List PointTag) (trace : List Event)
      (ys : List PVector),
      simulateAux thresholdSq pre tags trace (xs ++ ys) =
        simulateAux thresholdSq (pre ++ xs)
          (simulateAux thresholdSq pre tags trace xs).1
          (simulateAux thresholdSq pre tags trace xs).2 ys := by
  intro xs
  induction xs with
  | nil =>
    intro pre tags trace ys
    simp [simulateAux]
  | cons x xs ih =>
    intro pre tags trace ys
    simp only [List.cons_append, simulateAux]
    rw [List.append_eq, ih]
    congr 1
    simp

theorem simulate_length (thresholdSq : ℚ) (pts : List PVector) :
    ((simulate thresholdSq pts).1).length = pts.length := by
  unfold simulate
  rw [simulateAux_length]
  simp

theorem simulate_good (thresholdSq : ℚ) (pts : List PVector) :
    tagsGood (simulate thresholdSq pts).1 := by
  unfold simulate
  refine simulateAux_good _ _ _ _ _ ⟨?_, ?_⟩
  · intro k _ hk
    simp at hk
  · intro h0
    simp at h0

theorem simulate_append_shield (thresholdSq : ℚ) (ps qs : List PVector) (i0 : ℕ)
    (hc : (((simulate thresholdSq ps).1).getD i0 default).cut = true) :
    ∀ k, ps.length ≤ k →
      (((simulate thresholdSq (ps ++ qs)).1).getD k default).next ≠ (i0 : ℤ) := by
  intro k hk
  have hinv : cutLenInv (simulate thresholdSq ps).1 := by
    unfold simulate
    refine simulateAux_cutLenInv _ _ _ _ _ ?_
    intro m hm
    simp [default] at hm
  have hmain := simulateAux_shield thresholdSq i0 qs ps
    (simulate thresholdSq ps).1 (simulate thresholdSq ps).2 hinv hc
  have hrw : simulate thresholdSq (ps ++ qs) =
      simulateAux thresholdSq ps (simulate thresholdSq ps).1 (simulate thresholdSq ps).2 qs := by
    unfold simulate
    rw [simulateAux_append]
    simp
  rw [hrw]
  refine hmain.2.2 k ?_
  rw [simulate_length]
  exact hk

theorem nextNat_lt (tags : List PointTag) (hg : tagsGood tags) :
    ∀ k, 0 < k → nextNat tags k < k := by
  intro k hk
  by_cases hkl : k < tags.length
  · have h := hg.1 k hk hkl
    unfold nextNat
    omega
  · unfold nextNat
    rw [List.getD_eq_default _ _ (le_of_not_lt hkl)]
    show ((-1 : ℤ)).toNat < k
    omega

theorem nextNat_zero (tags : List PointTag) (hg : tagsGood tags) (h0 : 0 < tags.length) :
    nextNat tags 0 = 0 := by
  unfold nextNat
  rw [hg.2 h0]
  rfl

theorem iterate_reaches_zero (f : ℕ → ℕ) (hf : ∀ k, 0 < k → f k < k) (hf0 : f 0 = 0) :
    ∀ m x, x ≤ m → f^[m] x = 0 := by
  intro m
  induction m with
  | zero =>
    intro x hx
    interval_cases x
    simp
  | succ n ih =>
    intro x hx
    rw [Function.iterate_succ_apply]
    rcases Nat.eq_zero_or_pos x with h0 | hpos
    · subst h0
      rw [hf0]
      exact ih 0 (Nat.zero_le n)
    · refine ih (f x) ?_
      have := hf x hpos
      omega

theorem simLoop_length_le (thresholdSq : ℚ) (pts : List PVector) (tags : List PointTag)
    (hf : ∀ k, 0 < k → nextNat tags k < k) :
    ∀ (fuel i : ℕ) (line : Line) (acc : List PVector), i ≤ fuel →
      ((simLoop thresholdSq pts tags fuel i line acc).1).length ≤ acc.length + i := by
  intro fuel
  induction fuel with
  | zero =>
    intro i line acc hi
    interval_cases i
    simp [simLoop]
  | succ n ih =>
    intro i line acc hi
    simp only [simLoop]
    by_cases h0 : i = 0
    · rw [if_pos h0]
      simp
    · rw [if_neg h0]
      have hpos : 0 < i := Nat.pos_of_ne_zero h0
      have hlt := hf i hpos
      refine le_trans (ih _ _ _ (by omega)) ?_
      simp only [List.length_append, List.length_singleton]
      omega

theorem simLoop_head (thresholdSq : ℚ) (pts : List PVector) (tags : List PointTag) :
    ∀ (fuel i : ℕ) (line : Line) (a : PVector) (acc : List PVector),
      ((simLoop thresholdSq pts tags fuel i line (a :: acc)).1).head? = some a := by
  intro fuel
  induction fuel with
  | zero =>
    intro i line a acc
    rfl
  | succ n ih =>
    intro i line a acc
    simp only [simLoop]
    by_cases h0 : i = 0
    · rw [if_pos h0]
      rfl
    · rw [if_neg h0, List.cons_append]
      exact ih _ _ a _

theorem simLoop_line_eq (thresholdSq : ℚ) (pts : List PVector) (tags : List PointTag)
    (hf : ∀ k, 0 < k → nextNat tags k < k) :
    ∀ (fuel i : ℕ) (line : Line) (acc : List PVector), i ≤ fuel →
      (simLoop thresholdSq pts tags fuel i line acc).2 =
        if i = 0 then line else fitLine pts 0 (lastChainIdx tags fuel i) := by
  intro fuel
  induction fuel with
  | zero =>
    intro i line acc hi
    interval_cases i
    simp [simLoop]
  | succ n ih =>
    intro i line acc hi
    simp only [simLoop]
    by_cases h0 : i = 0
    · rw [if_pos h0, if_pos h0]
    · rw [if_neg h0, if_neg h0]
      have hpos : 0 < i := Nat.pos_of_ne_zero h0
      have hlt := hf i hpos
      rw [ih _ _ _ (by omega)]
      simp only [lastChainIdx]
      by_cases hz : nextNat tags i = 0
      · rw [if_pos hz, if_pos hz, hz]
      · rw [if_neg hz, if_neg hz]

theorem lastChainIdx_fuel (tags : List PointTag)
    (hf : ∀ k, 0 < k → nextNat tags k < k) :
    ∀ (i fuel fuel' : ℕ), 0 < i → i ≤ fuel → i ≤ fuel' →
      lastChainIdx tags fuel i = lastChainIdx tags fuel' i := by
  intro i
  induction i using Nat.strong_induction_on with
  | _ i ih =>
    intro fuel fuel' hpos hf1 hf2
    obtain ⟨n, rfl⟩ : ∃ n, fuel = n + 1 := ⟨fuel - 1, by omega⟩
    obtain ⟨m, rfl⟩ : ∃ m, fuel' = m + 1 := ⟨fuel' - 1, by omega⟩
    simp only [lastChainIdx]
    by_cases hz : nextNat tags i = 0
    · rw [if_pos hz, if_pos hz]
    · rw [if_neg hz, if_neg hz]
      have hlt := hf i hpos
      exact ih (nextNat tags i) hlt n m (Nat.pos_of_ne_zero hz) (by omega) (by omega)

theorem lastChainIdx_succ (tags : List PointTag) (fuel j : ℕ) :
    lastChainIdx tags (fuel + 1) j =
      if nextNat tags j = 0 then j else lastChainIdx tags fuel (nextNat tags j) := rfl

/-! ## Claims -/

/-- C1 (counterexample): for the appended sequence (0,0), (5,0), (10,0) with
threshold 1 (so `thresholdSq = 1`), `getSimplified()` does NOT return
[(0,0), (10,0)] in that order: the walk emits the path from the last point
backwards. -/
theorem c1_counterexample :
    getSimplified 1 [⟨0, 0⟩, ⟨5, 0⟩, ⟨10, 0⟩]
      ((simulate 1 [⟨0, 0⟩, ⟨5, 0⟩, ⟨10, 0⟩]).1) ≠ [⟨0, 0⟩, ⟨10, 0⟩] := by
  decide

/-- C1 (amended): for the appended sequence (0,0), (5,0), (10,0) with
threshold 1, `getSimplified()` returns exactly [(10,0), (0,0)] — the two
collinear endpoints, listed from the last original point to the first. -/
theorem c1_amended :
    getSimplified 1 [⟨0, 0⟩, ⟨5, 0⟩, ⟨10, 0⟩]
      ((simulate 1 [⟨0, 0⟩, ⟨5, 0⟩, ⟨10, 0⟩]).1) = [⟨10, 0⟩, ⟨0, 0⟩] := by
  decide

/-- C2 (counterexample): `L1.remap(L2, l)` is not `L2.map(L1.unmap(l))`: for
`L1 : x = 0`, `L2 : y = 0` and `l = (1, 0)` the two sides differ. -/
theorem c2_counterexample :
    (⟨1, 0, 0⟩ : Line).remap ⟨0, 1, 0⟩ ⟨1, 0⟩ ≠
      (⟨0, 1, 0⟩ : Line).map ((⟨1, 0, 0⟩ : Line).unmap ⟨1, 0⟩) := by
  decide

/-- C2 (amended): `L1.remap(L2, l)` interprets `(s, t)` in the ARGUMENT
`L2`'s frame, converts it to `L2`'s cartesian point, and maps that cartesian
point into the RECEIVER `L1`'s frame: `L1.remap(L2, l) = L1.map(L2.unmap(l))`,
and consequently (for a non-degenerate `L1`) reading the result back through
`L1.unmap` recovers `L2.unmap(l)`. -/
theorem c2_amended (l1 l2 : Line) (lv : LVector)
    (h : l1.a * l1.a + l1.b * l1.b ≠ 0) :
    l1.remap l2 lv = l1.map (l2.unmap lv) ∧
    l1.unmap (l1.remap l2 lv) = l2.unmap lv := by
  refine ⟨rfl, ?_⟩
  show l1.unmap (l1.map (l2.unmap lv)) = l2.unmap lv
  exact Line.unmap_map l1 (l2.unmap lv) h

/-- Witness for C2 (amended) at `L1 = ⟨1,0,0⟩`, `L2 = ⟨0,1,0⟩`, `l = (1,0)`. -/
theorem c2_amended_witness :
    ((⟨1, 0, 0⟩ : Line).a * (⟨1, 0, 0⟩ : Line).a +
      (⟨1, 0, 0⟩ : Line).b * (⟨1, 0, 0⟩ : Line).b ≠ 0) ∧
    ((⟨1, 0, 0⟩ : Line).remap ⟨0, 1, 0⟩ ⟨1, 0⟩ =
        (⟨1, 0, 0⟩ : Line).map ((⟨0, 1, 0⟩ : Line).unmap ⟨1, 0⟩) ∧
      (⟨1, 0, 0⟩ : Line).unmap ((⟨1, 0, 0⟩ : Line).remap ⟨0, 1, 0⟩ ⟨1, 0⟩) =
        (⟨0, 1, 0⟩ : Line).unmap ⟨1, 0⟩) :=
  ⟨by decide, c2_amended ⟨1, 0, 0⟩ ⟨0, 1, 0⟩ ⟨1, 0⟩ (by decide)⟩

/-- C3: for every threshold and every nonempty appended point sequence, the
length of the path returned by `getSimplified()` is at most the length of the
original sequence. -/
theorem c3_simplified_length_le (thresholdSq : ℚ) (pts : List PVector) (h : pts ≠ []) :
    (getSimplified thresholdSq pts ((simulate thresholdSq pts).1)).length ≤ pts.length := by
  have hg := simulate_good thresholdSq pts
  have hf := nextNat_lt _ hg
  by_cases h2 : pts.length ≤ 1
  · simp only [getSimplified]
    rw [if_pos h2]
  · simp only [getSimplified]
    rw [if_neg h2]
    have hj : 0 < pts.length - 1 := by omega
    have hi0 : nextNat ((simulate thresholdSq pts).1) (pts.length - 1) < pts.length - 1 :=
      hf _ hj
    have hloop := simLoop_length_le thresholdSq pts ((simulate thresholdSq pts).1) hf
      pts.length (nextNat ((simulate thresholdSq pts).1) (pts.length - 1))
      (fitLine pts (nextNat ((simulate thresholdSq pts).1) (pts.length - 1)) (pts.length - 1))
      [Geometry.project (pts.getD (pts.length - 1) default)
        (fitLine pts (nextNat ((simulate thresholdSq pts).1) (pts.length - 1)) (pts.length - 1))]
      (by omega)
    rw [List.length_append]
    simp only [List.length_singleton] at hloop ⊢
    omega

/-- Witness for C3 at the two-point path (0,0), (5,0) with `thresholdSq = 1`. -/
theorem c3_witness :
    (([⟨0, 0⟩, ⟨5, 0⟩] : List PVector) ≠ []) ∧
    (getSimplified 1 [⟨0, 0⟩, ⟨5, 0⟩] ((simulate 1 [⟨0, 0⟩, ⟨5, 0⟩]).1)).length ≤
      ([⟨0, 0⟩, ⟨5, 0⟩] : List PVector).length :=
  ⟨by decide, c3_simplified_length_le 1 [⟨0, 0⟩, ⟨5, 0⟩] (by decide)⟩

/-- C5: once the `cut` flag of `tags[i]` has been set by the scan of some
appended index, no scan triggered by any later append ever records `i` as a
predecessor: every tag created by a later append has `next ≠ i`. -/
theorem c5_cut_never_predecessor (thresholdSq : ℚ) (ps qs : List PVector) (i : ℕ)
    (hc : (((simulate thresholdSq ps).1).getD i default).cut = true) :
    ∀ k, ps.length ≤ k →
      (((simulate thresholdSq (ps ++ qs)).1).getD k default).next ≠ (i : ℤ) :=
  simulate_append_shield thresholdSq ps qs i hc

/-- Witness for C5: on the path (0,0), (10,0), (10,10), (5,-5) (whose last
segment crosses the first), `tags[0].cut` is set, and after appending a
further point (0,-5) the new tag at index 4 does not point at 0. -/
theorem c5_witness :
    ((((simulate 10000 [⟨0, 0⟩, ⟨10, 0⟩, ⟨10, 10⟩, ⟨5, -5⟩]).1).getD 0 default).cut = true) ∧
    (((simulate 10000 ([⟨0, 0⟩, ⟨10, 0⟩, ⟨10, 10⟩, ⟨5, -5⟩] ++ [⟨0, -5⟩])).1).getD 4
      default).next ≠ ((0 : ℕ) : ℤ) :=
  ⟨by decide,
    c5_cut_never_predecessor 10000 [⟨0, 0⟩, ⟨10, 0⟩, ⟨10, 10⟩, ⟨5, -5⟩] [⟨0, -5⟩] 0
      (by decide) 4 (by decide)⟩

/-- C6: for every valid index `i`, `fitLine(i, i)` returns a line whose
coefficients satisfy `a·x + b·y + c = 0` exactly at point `i`, so the
orthogonal projection of the point onto the line is the point itself (its
distance to the line is 0). -/
theorem c6_fitLine_single_point (pts : List PVector) (i : ℕ) (h : i < pts.length) :
    (fitLine pts i i).a * (pts.getD i default).x +
      (fitLine pts i i).b * (pts.getD i default).y + (fitLine pts i i).c = 0 ∧
    Geometry.project (pts.getD i default) (fitLine pts i i) = pts.getD i default := by
  rw [fitLine_diag pts i h]
  constructor
  · ring
  · simp only [Geometry.project]
    ext
    · ring
    · ring

/-- Witness for C6 at the one-point path (2, 5), index 0. -/
theorem c6_witness :
    (0 < ([⟨2, 5⟩] : List PVector).length) ∧
    ((fitLine [⟨2, 5⟩] 0 0).a * (([⟨2, 5⟩] : List PVector).getD 0 default).x +
      (fitLine [⟨2, 5⟩] 0 0).b * (([⟨2, 5⟩] : List PVector).getD 0 default).y +
      (fitLine [⟨2, 5⟩] 0 0).c = 0 ∧
    Geometry.project (([⟨2, 5⟩] : List PVector).getD 0 default) (fitLine [⟨2, 5⟩] 0 0) =
      ([⟨2, 5⟩] : List PVector).getD 0 default) :=
  ⟨by decide, c6_fitLine_single_point [⟨2, 5⟩] 0 (by decide)⟩

/-- C7 (counterexample): `ErrorBox.error()` can DECREASE across an `extend`
performed by the backward scan.  On the path (-3,-3), (-3,3), (1,-2), (3,3)
with `thresholdSq = 16`, the scan of the append of index 3 runs through all
of i = 2, 1, 0 (trace all-accept), extending the box with
`(fitLine(i,3), pᵢ)` at each step; the error after the extend at i = 0 is
strictly below the error after the extend at i = 1. -/
theorem c7_counterexample :
    (simulate 16 [⟨-3, -3⟩, ⟨-3, 3⟩, ⟨1, -2⟩, ⟨3, 3⟩]).2 =
      [Event.accept, Event.accept, Event.accept, Event.accept] ∧
    ((((ErrorBox.construct (fitLine [⟨-3, -3⟩, ⟨-3, 3⟩, ⟨1, -2⟩, ⟨3, 3⟩] 3 3) ⟨3, 3⟩).extend
          (fitLine [⟨-3, -3⟩, ⟨-3, 3⟩, ⟨1, -2⟩, ⟨3, 3⟩] 2 3) ⟨1, -2⟩).extend
          (fitLine [⟨-3, -3⟩, ⟨-3, 3⟩, ⟨1, -2⟩, ⟨3, 3⟩] 1 3) ⟨-3, 3⟩).extend
          (fitLine [⟨-3, -3⟩, ⟨-3, 3⟩, ⟨1, -2⟩, ⟨3, 3⟩] 0 3) ⟨-3, -3⟩).error <
      (((ErrorBox.construct (fitLine [⟨-3, -3⟩, ⟨-3, 3⟩, ⟨1, -2⟩, ⟨3, 3⟩] 3 3) ⟨3, 3⟩).extend
          (fitLine [⟨-3, -3⟩, ⟨-3, 3⟩, ⟨1, -2⟩, ⟨3, 3⟩] 2 3) ⟨1, -2⟩).extend
          (fitLine [⟨-3, -3⟩, ⟨-3, 3⟩, ⟨1, -2⟩, ⟨3, 3⟩] 1 3) ⟨-3, 3⟩).error := by
  constructor
  · decide
  · decide

/-- C7 (amended): `error()` is not monotone across `extend` calls, but each
`extend(line, p)` preserves the box's covering role: in the new line's frame
the resulting rectangle contains the mapped new point and the four remapped
corners of the previous rectangle, and `error()` is at least the squared
cartesian distance from the newly added point to the new line. -/
theorem c7_amended (box : ErrorBox) (line : Line) (p : PVector)
    (h : line.a * line.a + line.b * line.b ≠ 0) :
    ((box.extend line p).t0 ≤ (line.map p).t ∧ (line.map p).t ≤ (box.extend line p).t1) ∧
    ((box.extend line p).s0 ≤ (line.map p).s ∧ (line.map p).s ≤ (box.extend line p).s1) ∧
    (∀ s t, (s = box.s0 ∨ s = box.s1) → (t = box.t0 ∨ t = box.t1) →
      (box.extend line p).s0 ≤ (line.remapc box.line s t).s ∧
      (line.remapc box.line s t).s ≤ (box.extend line p).s1 ∧
      (box.extend line p).t0 ≤ (line.remapc box.line s t).t ∧
      (line.remapc box.line s t).t ≤ (box.extend line p).t1) ∧
    (line.a * p.x + line.b * p.y + line.c) * (line.a * p.x + line.b * p.y + line.c) /
      (line.a * line.a + line.b * line.b) ≤ (box.extend line p).error := by
  have hS : (0 : ℚ) ≤ line.a * line.a + line.b * line.b :=
    add_nonneg (mul_self_nonneg _) (mul_self_nonneg _)
  refine ⟨⟨?_, ?_⟩, ⟨?_, ?_⟩, ?_, ?_⟩
  · simp only [ErrorBox.extend]
    simp [min_le_iff, le_max_iff]
  · simp only [ErrorBox.extend]
    simp [min_le_iff, le_max_iff]
  · simp only [ErrorBox.extend]
    simp [min_le_iff, le_max_iff]
  · simp only [ErrorBox.extend]
    simp [min_le_iff, le_max_iff]
  · intro s t hs ht
    rcases hs with hs | hs <;> rcases ht with ht | ht <;> subst hs <;> subst ht <;>
      refine ⟨?_, ?_, ?_, ?_⟩ <;>
      · simp only [ErrorBox.extend]
        simp [min_le_iff, le_max_iff]
  · have ht0 : (box.extend line p).t0 ≤ (line.map p).t := by
      simp only [ErrorBox.extend]
      simp [min_le_iff, le_max_iff]
    have ht1 : (line.map p).t ≤ (box.extend line p).t1 := by
      simp only [ErrorBox.extend]
      simp [min_le_iff, le_max_iff]
    have hmax := mul_self_le_max_mul_self ht0 ht1
    have htv : (line.map p).t = (line.a * p.x + line.b * p.y + line.c) /
        (line.a * line.a + line.b * line.b) := rfl
    have herr : (box.extend line p).error =
        max ((box.extend line p).t0 * (box.extend line p).t0)
          ((box.extend line p).t1 * (box.extend line p).t1) *
          (line.a * line.a + line.b * line.b) := rfl
    rw [herr]
    have hSne : line.a * line.a + line.b * line.b ≠ 0 := h
    have hrw : (line.a * p.x + line.b * p.y + line.c) *
        (line.a * p.x + line.b * p.y + line.c) / (line.a * line.a + line.b * line.b) =
        (line.map p).t * (line.map p).t * (line.a * line.a + line.b * line.b) := by
      rw [htv]
      field_simp
      ring
    rw [hrw]
    exact mul_le_mul_of_nonneg_right hmax hS

/-- Witness for C7 (amended) at a box built on the x-axis line, extended with
the line `x = 0` and the point (2, 3). -/
theorem c7_amended_witness :
    ((⟨1, 0, 0⟩ : Line).a * (⟨1, 0, 0⟩ : Line).a +
      (⟨1, 0, 0⟩ : Line).b * (⟨1, 0, 0⟩ : Line).b ≠ 0) ∧
    (((ErrorBox.construct ⟨0, 1, 0⟩ ⟨1, 1⟩).extend ⟨1, 0, 0⟩ ⟨2, 3⟩).t0 ≤
        ((⟨1, 0, 0⟩ : Line).map ⟨2, 3⟩).t ∧
      ((⟨1, 0, 0⟩ : Line).map ⟨2, 3⟩).t ≤
        ((ErrorBox.construct ⟨0, 1, 0⟩ ⟨1, 1⟩).extend ⟨1, 0, 0⟩ ⟨2, 3⟩).t1) :=
  ⟨by decide,
    ((c7_amended (ErrorBox.construct ⟨0, 1, 0⟩ ⟨1, 1⟩) ⟨1, 0, 0⟩ ⟨2, 3⟩ (by decide)).1)⟩

/-- C8 (counterexample): constructing a `PathSimplifier` with the
non-positive threshold -1 is NOT rejected: the constructor silently succeeds,
storing `thresholdSq = 1` and building the full tag table. -/
theorem c8_counterexample :
    ((-1 : ℚ) ≤ 0) ∧ (mkPathSimplifier [⟨0, 0⟩, ⟨1, 0⟩] (-1)).1 = 1 ∧
      ((mkPathSimplifier [⟨0, 0⟩, ⟨1, 0⟩] (-1)).2).length = 2 := by
  refine ⟨by norm_num, by decide, by decide⟩

/-- C8 (amended): the constructor performs no validation of the threshold:
for EVERY threshold (positive or not) it succeeds, storing
`thresholdSq = threshold²` and replaying every path point into the tag
table. -/
theorem c8_amended (pts : List PVector) (threshold : ℚ) :
    (mkPathSimplifier pts threshold).1 = threshold * threshold ∧
    ((mkPathSimplifier pts threshold).2).length = pts.length :=
  ⟨rfl, simulate_length (threshold * threshold) pts⟩

/-- C10: for every `j ≥ 1`, after the run `tags[j].next` lies in `[0, j-1]`,
and iterating the predecessor map from the last index reaches index 0 in at
most `pathLength - 1` steps, so the reconstruction loop terminates. -/
theorem c10_chain (thresholdSq : ℚ) (pts : List PVector) (h : pts ≠ []) :
    (∀ j, 0 < j → j < pts.length →
      0 ≤ (((simulate thresholdSq pts).1).getD j default).next ∧
      (((simulate thresholdSq pts).1).getD j default).next < (j : ℤ)) ∧
    (fun k => nextNat ((simulate thresholdSq pts).1) k)^[pts.length - 1]
      (pts.length - 1) = 0 := by
  have hg := simulate_good thresholdSq pts
  have hlen := simulate_length thresholdSq pts
  constructor
  · intro j hj hjlen
    exact hg.1 j hj (by omega)
  · refine iterate_reaches_zero _ (nextNat_lt _ hg) ?_ _ _ le_rfl
    refine nextNat_zero _ hg ?_
    rw [hlen]
    exact List.length_pos.mpr h

/-- Witness for C10 at the two-point path (0,0), (1,1) with `thresholdSq = 1`. -/
theorem c10_witness :
    (([⟨0, 0⟩, ⟨1, 1⟩] : List PVector) ≠ []) ∧
    ((∀ j, 0 < j → j < ([⟨0, 0⟩, ⟨1, 1⟩] : List PVector).length →
      0 ≤ (((simulate 1 [⟨0, 0⟩, ⟨1, 1⟩]).1).getD j default).next ∧
      (((simulate 1 [⟨0, 0⟩, ⟨1, 1⟩]).1).getD j default).next < (j : ℤ)) ∧
    (fun k => nextNat ((simulate 1 [⟨0, 0⟩, ⟨1, 1⟩]).1) k)^[
      ([⟨0, 0⟩, ⟨1, 1⟩] : List PVector).length - 1]
      (([⟨0, 0⟩, ⟨1, 1⟩] : List PVector).length - 1) = 0) :=
  ⟨by decide, c10_chain 1 [⟨0, 0⟩, ⟨1, 1⟩] (by decide)⟩

theorem lastChainIdx_unfold_top (tags : List PointTag)
    (hf : ∀ k, 0 < k → nextNat tags k < k) (L j : ℕ) (hj : 0 < j) (hjL : j < L) :
    lastChainIdx tags L j =
      if nextNat tags j = 0 then j else lastChainIdx tags L (nextNat tags j) := by
  obtain ⟨m, rfl⟩ : ∃ m, L = m + 1 := ⟨L - 1, by omega⟩
  rw [lastChainIdx_succ]
  by_cases hz : nextNat tags j = 0
  · rw [if_pos hz, if_pos hz]
  · rw [if_neg hz, if_neg hz]
    refine lastChainIdx_fuel tags hf (nextNat tags j) m (m + 1) (Nat.pos_of_ne_zero hz)
      ?_ ?_
    · have := hf j hj
      omega
    · have := hf j hj
      omega

/-- C9: for every appended sequence of length at least 2, the first output
vertex of `getSimplified()` is the orthogonal projection of the LAST original
point onto the fitted line of the final chain edge
`(tags[last].next, last)`, and the last output vertex is the orthogonal
projection of original point 0 onto the fitted line of the first chain edge
`(0, lastChainIdx)` — i.e. the output runs in reverse order of the original
path. -/
theorem c9_endpoints (thresholdSq : ℚ) (pts : List PVector) (h2 : 2 ≤ pts.length) :
    (getSimplified thresholdSq pts ((simulate thresholdSq pts).1)).head? =
      some (Geometry.project (pts.getD (pts.length - 1) default)
        (fitLine pts (nextNat ((simulate thresholdSq pts).1) (pts.length - 1))
          (pts.length - 1))) ∧
    (getSimplified thresholdSq pts ((simulate thresholdSq pts).1)).getLast? =
      some (Geometry.project (pts.getD 0 default)
        (fitLine pts 0
          (lastChainIdx ((simulate thresholdSq pts).1) pts.length (pts.length - 1)))) := by
  have hg := simulate_good thresholdSq pts
  have hf := nextNat_lt _ hg
  have hj : 0 < pts.length - 1 := by omega
  have hi0 : nextNat ((simulate thresholdSq pts).1) (pts.length - 1) < pts.length - 1 :=
    hf _ hj
  constructor
  · simp only [getSimplified]
    rw [if_neg (by omega)]
    rw [List.head?_append, simLoop_head]
    rfl
  · simp only [getSimplified]
    rw [if_neg (by omega)]
    rw [List.getLast?_concat]
    have hline := simLoop_line_eq thresholdSq pts ((simulate thresholdSq pts).1) hf
      pts.length (nextNat ((simulate thresholdSq pts).1) (pts.length - 1))
      (fitLine pts (nextNat ((simulate thresholdSq pts).1) (pts.length - 1))
        (pts.length - 1))
      [Geometry.project (pts.getD (pts.length - 1) default)
        (fitLine pts (nextNat ((simulate thresholdSq pts).1) (pts.length - 1))
          (pts.length - 1))]
      (by omega)
    rw [hline,
      lastChainIdx_unfold_top ((simulate thresholdSq pts).1) hf pts.length
        (pts.length - 1) hj (by omega)]
    by_cases hz : nextNat ((simulate thresholdSq pts).1) (pts.length - 1) = 0
    · rw [if_pos hz, if_pos hz, hz]
    · rw [if_neg hz, if_neg hz]

/-- Witness for C9 at the two-point path (0,0), (3,3) with `thresholdSq = 1`. -/
theorem c9_witness :
    (2 ≤ ([⟨0, 0⟩, ⟨3, 3⟩] : List PVector).length) ∧
    ((getSimplified 1 [⟨0, 0⟩, ⟨3, 3⟩] ((simulate 1 [⟨0, 0⟩, ⟨3, 3⟩]).1)).head? =
      some (Geometry.project (([⟨0, 0⟩, ⟨3, 3⟩] : List PVector).getD
          (([⟨0, 0⟩, ⟨3, 3⟩] : List PVector).length - 1) default)
        (fitLine [⟨0, 0⟩, ⟨3, 3⟩]
          (nextNat ((simulate 1 [⟨0, 0⟩, ⟨3, 3⟩]).1)
            (([⟨0, 0⟩, ⟨3, 3⟩] : List PVector).length - 1))
          (([⟨0, 0⟩, ⟨3, 3⟩] : List PVector).length - 1))) ∧
    (getSimplified 1 [⟨0, 0⟩, ⟨3, 3⟩] ((simulate 1 [⟨0, 0⟩, ⟨3, 3⟩]).1)).getLast? =
      some (Geometry.project (([⟨0, 0⟩, ⟨3, 3⟩] : List PVector).getD 0 default)
        (fitLine [⟨0, 0⟩, ⟨3, 3⟩] 0
          (lastChainIdx ((simulate 1 [⟨0, 0⟩, ⟨3, 3⟩]).1)
            ([⟨0, 0⟩, ⟨3, 3⟩] : List PVector).length
            (([⟨0, 0⟩, ⟨3, 3⟩] : List PVector).length - 1))))) :=
  ⟨by decide, c9_endpoints 1 [⟨0, 0⟩, ⟨3, 3⟩] (by decide)⟩

end Polysim
